import Mathlib

/-!
Verification of the connection-normalization algorithm of
`src/Backend/query_cohere_main.py` (function `get_project_info_cohere`,
lines 225-253).  The network call and prompt plumbing are out of scope;
the model response is embedded as a record (`RawProject`) and the
normalization loop is translated statement by statement.
-/

namespace TinkerFlow

/-- Python `str.split(sep)` for a single-character separator, on the
character list of the string: splits at every occurrence of `sep`,
keeping empty pieces, and always returns at least one piece. -/
def splitOnChar (sep : Char) : List Char → List (List Char)
  | [] => [[]]
  | c :: cs =>
    if c = sep then [] :: splitOnChar sep cs
    else
      match splitOnChar sep cs with
      | [] => [[c]]
      | p :: ps => (c :: p) :: ps

/-- Python `s.split(sep)` for a single-character separator. -/
def pySplit (sep : Char) (s : String) : List String :=
  (splitOnChar sep s.data).map String.mk

/-- One side of a raw connection string: a component-instance name and a
connector label (`name;connector`). -/
structure ConnPoint where
  name : String
  connector : String
deriving DecidableEq

/-- A parsed raw connection string: its two connection points in the
order they appeared in the string. -/
structure ParsedConn where
  p1 : ConnPoint
  p2 : ConnPoint
deriving DecidableEq

/-- `connection_point.split(";")` followed by unpacking into exactly two
variables (line 230/231): any number of parts other than two raises in
Python, embedded as `none`. -/
def parsePoint (s : String) : Option ConnPoint :=
  match pySplit ';' s with
  | [n, c] => some ⟨n, c⟩
  | _ => none

/-- `connection.split("$")` followed by unpacking into exactly two
variables (line 228), then parsing both points: any failure raises in
Python, embedded as `none`. -/
def parseConnection (s : String) : Option ParsedConn :=
  match pySplit '$' s with
  | [a, b] =>
    match parsePoint a, parsePoint b with
    | some q1, some q2 => some ⟨q1, q2⟩
    | _, _ => none
  | _ => none

/-- `combo_name = connector_name1 + "/" + connector_name2` (line 241). -/
def combo_name (c : ParsedConn) : String :=
  c.p1.connector ++ "/" ++ c.p2.connector

/-- The loop state: the accumulators `all_components` and
`all_connections` of lines 225-226. -/
structure NormState where
  all_components : List String
  all_connections : List (List String)
deriving DecidableEq

/-- Python `list.index(x)` for the case `x ∈ l` (first occurrence);
out of the list it returns the length, which the code never hits because
it only calls `index` after registering the name. -/
def list_index (x : String) : List String → Nat
  | [] => 0
  | a :: as => if a = x then 0 else list_index x as + 1

/-- Python `ls[i].append(x)` on a list of lists: append `x` to the
`i`-th entry, leaving the list unchanged when `i` is out of range. -/
def appendAt (x : String) : List (List String) → Nat → List (List String)
  | [], _ => []
  | l :: ls, 0 => (l ++ [x]) :: ls
  | l :: ls, n + 1 => l :: appendAt x ls n

/-- Lines 233-235 / 237-239: if the name has not been seen, append it to
`all_components` and append a fresh empty list to `all_connections`. -/
def register (st : NormState) (n : String) : NormState :=
  if n ∈ st.all_components then st
  else ⟨st.all_components ++ [n], st.all_connections ++ [[]]⟩

/-- The body of the `for connection in resp1["connections"]` loop for one
already-parsed connection (lines 233-244): register both endpoint names,
build the combined label, and append it to both endpoints' lists. -/
def processConnection (st : NormState) (c : ParsedConn) : NormState :=
  let st2 := register (register st c.p1.name) c.p2.name
  let combo := combo_name c
  let conns3 := appendAt combo st2.all_connections (list_index c.p1.name st2.all_components)
  ⟨st2.all_components, appendAt combo conns3 (list_index c.p2.name st2.all_components)⟩

/-- The whole loop of lines 227-244, parsing interleaved with state
updates; a parse failure raises in Python and is caught by the
surrounding `except`, embedded as `none`. -/
def normLoop (st : NormState) : List String → Option NormState
  | [] => some st
  | r :: rs =>
    match parseConnection r with
    | none => none
    | some c => normLoop (processConnection st c) rs

/-- Normalization of a raw connections list starting from the empty
accumulators of lines 225-226. -/
def normalizeConnections (raws : List String) : Option NormState :=
  normLoop ⟨[], []⟩ raws

/-- Parsing every raw connection string up front; separated from the
loop for stating theorems, and proved equivalent to the interleaved
`normLoop` below. -/
def parseAll : List String → Option (List ParsedConn)
  | [] => some []
  | r :: rs =>
    match parseConnection r, parseAll rs with
    | some c, some cs => some (c :: cs)
    | _, _ => none

/-- The parsed model response (`resp1` of line 222): the JSON object the
model was asked for, with `connections` still the raw strings; `extra`
carries any additional keys of the JSON object. -/
structure RawProject where
  name : String
  description : String
  instruction : List String
  components : List String
  connections : List String
  code : String
  extra : List (String × String)
deriving DecidableEq

/-- The returned project after normalization: same fields, with
`connections` and `components` replaced by the normalized forms. -/
structure NormalizedProject where
  name : String
  description : String
  instruction : List String
  components : List String
  connections : List (List String)
  code : String
  extra : List (String × String)
deriving DecidableEq

/-- Lines 225-253 on a parsed model response: run the normalization
loop, then overwrite `resp1["connections"]` and `resp1["components"]`
(lines 246-247) and return `resp1`; any exception inside the `try` is
caught and a single failure value is returned instead (lines 251-253),
embedded as `none`. -/
def get_project_info_cohere (resp1 : RawProject) : Option NormalizedProject :=
  match normLoop ⟨[], []⟩ resp1.connections with
  | none => none
  | some st =>
    some (NormalizedProject.mk resp1.name resp1.description resp1.instruction
      st.all_components st.all_connections resp1.code resp1.extra)

/-! Derived notions used to state the properties -/

/-- The two accumulators stay the same length throughout the loop. -/
def lenEq (st : NormState) : Prop :=
  st.all_components.length = st.all_connections.length

/-- Total number of pair-labels stored across all per-component lists. -/
def sumLen (ls : List (List String)) : Nat :=
  (ls.map List.length).sum

/-- The connector-pair-label list recorded for the component-instance
name `x`: the entry of `all_connections` at the index Python
`all_components.index(x)` would return, `[]` when `x` is unregistered. -/
def lookupList (st : NormState) (x : String) : List String :=
  st.all_connections.getD (list_index x st.all_components) []

/-- The effect of `register` on `all_components` alone. -/
def regName (acc : List String) (n : String) : List String :=
  if n ∈ acc then acc else acc ++ [n]

/-- All endpoint component-instance names of a parsed connection list,
in document order. -/
def endpointNames : List ParsedConn → List String
  | [] => []
  | c :: cs => c.p1.name :: c.p2.name :: endpointNames cs

/-- From the spec (§4.2 step 2b): the distinct names in the order of
their first occurrence in document order. -/
def firstSeen : List String → List String
  | [] => []
  | n :: ns => n :: (firstSeen ns).filter (fun m => m ≠ n)

/-- The pair-labels one parsed connection contributes to the list of the
component-instance name `x` (two for a self-loop). -/
def labelsOfOne (x : String) (c : ParsedConn) : List String :=
  (if c.p1.name = x then [combo_name c] else []) ++
  (if c.p2.name = x then [combo_name c] else [])

/-- From the spec (§3): the pair-labels incident to the
component-instance name `x`, in the order the connections appear. -/
def labelsOf (x : String) : List ParsedConn → List String
  | [] => []
  | c :: cs => labelsOfOne x c ++ labelsOf x cs

/-- Number of occurrences of `x` in a list. -/
def occCount {α : Type} [DecidableEq α] (x : α) : List α → Nat
  | [] => 0
  | a :: as => (if a = x then 1 else 0) + occCount x as

/-- The loop over an already-parsed connection list. -/
def foldConns (st : NormState) (cs : List ParsedConn) : NormState :=
  cs.foldl processConnection st

/-! Facts about `list_index` -/

theorem list_index_lt_length {x : String} {l : List String} (h : x ∈ l) :
    list_index x l < l.length := by
  induction l with
  | nil => cases h
  | cons a as ih =>
    by_cases hax : a = x
    · simp [list_index, hax]
    · have hx : x ∈ as := by
        rcases List.mem_cons.mp h with rfl | h1
        · exact absurd rfl hax
        · exact h1
      simp only [list_index, if_neg hax, List.length_cons]
      exact Nat.succ_lt_succ (ih hx)

theorem list_index_of_not_mem {x : String} {l : List String} (h : x ∉ l) :
    list_index x l = l.length := by
  induction l with
  | nil => rfl
  | cons a as ih =>
    rw [List.mem_cons, not_or] at h
    obtain ⟨h1, h2⟩ := h
    have hax : ¬ a = x := fun hh => h1 hh.symm
    simp [list_index, hax, ih h2]

theorem list_index_append_of_mem {x : String} {l l2 : List String} (h : x ∈ l) :
    list_index x (l ++ l2) = list_index x l := by
  induction l with
  | nil => cases h
  | cons a as ih =>
    by_cases hax : a = x
    · simp [list_index, hax]
    · have hx : x ∈ as := by
        rcases List.mem_cons.mp h with rfl | h1
        · exact absurd rfl hax
        · exact h1
      simp [list_index, hax, ih hx]

theorem list_index_append_of_not_mem {x : String} {l l2 : List String} (h : x ∉ l) :
    list_index x (l ++ l2) = l.length + list_index x l2 := by
  induction l with
  | nil => simp [list_index]
  | cons a as ih =>
    rw [List.mem_cons, not_or] at h
    obtain ⟨h1, h2⟩ := h
    have hax : ¬ a = x := fun hh => h1 hh.symm
    have hstep : list_index x ((a :: as) ++ l2) = list_index x (as ++ l2) + 1 := by
      simp [list_index, hax]
    rw [hstep, ih h2, List.length_cons]
    omega

theorem getD_list_index {x : String} {l : List String} (d : String) (h : x ∈ l) :
    l.getD (list_index x l) d = x := by
  induction l with
  | nil => cases h
  | cons a as ih =>
    by_cases hax : a = x
    · simp only [list_index, if_pos hax, List.getD_cons_zero]
      exact hax
    · have hx : x ∈ as := by
        rcases List.mem_cons.mp h with rfl | h1
        · exact absurd rfl hax
        · exact h1
      simp only [list_index, if_neg hax, List.getD_cons_succ]
      exact ih hx

theorem list_index_getD {l : List String} (d : String) (hl : l.Nodup) {i : Nat}
    (hi : i < l.length) : list_index (l.getD i d) l = i := by
  induction l generalizing i with
  | nil => simp at hi
  | cons a as ih =>
    obtain ⟨ha, has⟩ := List.nodup_cons.mp hl
    cases i with
    | zero => simp [list_index]
    | succ n =>
      have hn : n < as.length := by simpa using hi
      have hmem : as.getD n d ∈ as := by
        rw [List.getD_eq_getElem as d hn]
        exact List.getElem_mem hn
      have hne : ¬ a = as.getD n d := fun hh => ha (hh ▸ hmem)
      rw [List.getD_cons_succ]
      simp only [list_index, if_neg hne]
      rw [ih has hn]

/-! Facts about `List.getD` -/

theorem getD_append_lt {α : Type} (l l2 : List α) (d : α) :
    ∀ i, i < l.length → (l ++ l2).getD i d = l.getD i d := by
  induction l with
  | nil => intro i hi; simp at hi
  | cons a as ih =>
    intro i hi
    cases i with
    | zero => rfl
    | succ n => exact ih n (by simpa using hi)

theorem getD_append_add {α : Type} (l l2 : List α) (d : α) (j : Nat) :
    (l ++ l2).getD (l.length + j) d = l2.getD j d := by
  induction l with
  | nil => simp
  | cons a as ih => simpa [Nat.succ_add] using ih

theorem getD_of_ge {α : Type} (l : List α) (d : α) :
    ∀ i, l.length ≤ i → l.getD i d = d := by
  induction l with
  | nil => intro i _; cases i <;> rfl
  | cons a as ih =>
    intro i hi
    cases i with
    | zero => simp at hi
    | succ n => exact ih n (by simpa using hi)

/-! Facts about `appendAt` -/

theorem appendAt_length (x : String) :
    ∀ (ls : List (List String)) (i : Nat), (appendAt x ls i).length = ls.length := by
  intro ls
  induction ls with
  | nil => intro i; rfl
  | cons l ls ih =>
    intro i
    cases i with
    | zero => rfl
    | succ n => simp [appendAt, ih n]

theorem getD_appendAt_self (x : String) :
    ∀ (ls : List (List String)) (i : Nat), i < ls.length →
      (appendAt x ls i).getD i [] = ls.getD i [] ++ [x] := by
  intro ls
  induction ls with
  | nil => intro i hi; simp at hi
  | cons l ls ih =>
    intro i hi
    cases i with
    | zero => rfl
    | succ n => exact ih n (by simpa using hi)

theorem getD_appendAt_ne (x : String) :
    ∀ (ls : List (List String)) (i j : Nat), j ≠ i →
      (appendAt x ls i).getD j [] = ls.getD j [] := by
  intro ls
  induction ls with
  | nil => intro i j _; simp [appendAt]
  | cons l ls ih =>
    intro i j hne
    cases i with
    | zero =>
      cases j with
      | zero => exact absurd rfl hne
      | succ m => rfl
    | succ n =>
      cases j with
      | zero => rfl
      | succ m => exact ih n m (fun hh => hne (by simp [hh]))

theorem sumLen_appendAt (x : String) :
    ∀ (ls : List (List String)) (i : Nat), i < ls.length →
      sumLen (appendAt x ls i) = sumLen ls + 1 := by
  intro ls
  induction ls with
  | nil => intro i hi; simp at hi
  | cons l ls ih =>
    intro i hi
    cases i with
    | zero => simp [appendAt, sumLen]; omega
    | succ n =>
      have := ih n (by simpa using hi)
      simp only [appendAt, sumLen, List.map_cons, List.sum_cons] at *
      omega

/-! Facts about `register` -/

theorem register_components (st : NormState) (n : String) :
    (register st n).all_components = regName st.all_components n := by
  by_cases h : n ∈ st.all_components <;> simp [register, regName, h]

theorem register_lenEq {st : NormState} (n : String) (h : lenEq st) :
    lenEq (register st n) := by
  unfold lenEq register at *
  by_cases hm : n ∈ st.all_components
  · simpa [hm] using h
  · simp [hm, h]

theorem mem_register {st : NormState} {x : String} (n : String)
    (h : x ∈ st.all_components) : x ∈ (register st n).all_components := by
  by_cases hm : n ∈ st.all_components <;> simp [register, hm, h]

theorem mem_register_self (st : NormState) (n : String) :
    n ∈ (register st n).all_components := by
  by_cases hm : n ∈ st.all_components <;> simp [register, hm]

theorem lookupList_register {st : NormState} (h : lenEq st) (n x : String) :
    lookupList (register st n) x = lookupList st x := by
  have h' : st.all_components.length = st.all_connections.length := h
  by_cases hm : n ∈ st.all_components
  · simp [register, hm]
  · have hreg : register st n =
        ⟨st.all_components ++ [n], st.all_connections ++ [[]]⟩ := by
      simp [register, hm]
    rw [hreg]
    by_cases hx : x ∈ st.all_components
    · show (st.all_connections ++ [[]]).getD (list_index x (st.all_components ++ [n])) []
        = st.all_connections.getD (list_index x st.all_components) []
      rw [list_index_append_of_mem hx]
      exact getD_append_lt _ _ _ _ (h' ▸ list_index_lt_length hx)
    · show (st.all_connections ++ [[]]).getD (list_index x (st.all_components ++ [n])) []
        = st.all_connections.getD (list_index x st.all_components) []
      have rhs : st.all_connections.getD (list_index x st.all_components) [] = [] := by
        rw [list_index_of_not_mem hx, h']
        exact getD_of_ge _ _ _ (Nat.le_refl _)
      by_cases hxn : x = n
      · subst hxn
        have h1 : list_index x [x] = 0 := by simp [list_index]
        rw [list_index_append_of_not_mem hx, h1, h', getD_append_add, rhs]
        rfl
      · have hx2 : x ∉ st.all_components ++ [n] := by
          simp only [List.mem_append, List.mem_singleton]
          rintro (hc | hc)
          · exact hx hc
          · exact hxn hc
        have lhs : (st.all_connections ++ [[]]).getD
            (list_index x (st.all_components ++ [n])) [] = [] := by
          rw [list_index_of_not_mem hx2]
          apply getD_of_ge
          simp [h']
        rw [lhs, rhs]

/-! Facts about `processConnection` -/

theorem processConnection_components (st : NormState) (c : ParsedConn) :
    (processConnection st c).all_components =
      regName (regName st.all_components c.p1.name) c.p2.name := by
  simp [processConnection, register_components]

theorem processConnection_lenEq {st : NormState} (c : ParsedConn) (h : lenEq st) :
    lenEq (processConnection st c) := by
  have h2 : lenEq (register (register st c.p1.name) c.p2.name) :=
    register_lenEq _ (register_lenEq _ h)
  show (processConnection st c).all_components.length
    = (processConnection st c).all_connections.length
  simp only [processConnection, appendAt_length]
  exact h2

theorem lookupList_appendAt {st : NormState} (h : lenEq st) {n : String}
    (hn : n ∈ st.all_components) (y x : String) :
    lookupList ⟨st.all_components,
        appendAt y st.all_connections (list_index n st.all_components)⟩ x
      = lookupList st x ++ (if n = x then [y] else []) := by
  have h' : st.all_components.length = st.all_connections.length := h
  by_cases hnx : n = x
  · subst hnx
    rw [if_pos rfl]
    show (appendAt y st.all_connections (list_index n st.all_components)).getD
        (list_index n st.all_components) []
      = st.all_connections.getD (list_index n st.all_components) [] ++ [y]
    exact getD_appendAt_self y _ _ (h' ▸ list_index_lt_length hn)
  · rw [if_neg hnx, List.append_nil]
    show (appendAt y st.all_connections (list_index n st.all_components)).getD
        (list_index x st.all_components) []
      = st.all_connections.getD (list_index x st.all_components) []
    have hne : list_index x st.all_components ≠ list_index n st.all_components := by
      by_cases hx : x ∈ st.all_components
      · intro he
        have e1 : st.all_components.getD (list_index x st.all_components) "" = x :=
          getD_list_index "" hx
        have e2 : st.all_components.getD (list_index n st.all_components) "" = n :=
          getD_list_index "" hn
        rw [he, e2] at e1
        exact hnx e1
      · rw [list_index_of_not_mem hx]
        have := list_index_lt_length hn
        omega
    exact getD_appendAt_ne y _ _ _ hne

theorem lookupList_processConnection {st : NormState} (c : ParsedConn) (h : lenEq st)
    (x : String) :
    lookupList (processConnection st c) x = lookupList st x ++ labelsOfOne x c := by
  set st2 := register (register st c.p1.name) c.p2.name with hst2
  have h2 : lenEq st2 := register_lenEq _ (register_lenEq _ h)
  have hm1 : c.p1.name ∈ st2.all_components :=
    mem_register _ (mem_register_self st c.p1.name)
  have hm2 : c.p2.name ∈ st2.all_components := mem_register_self _ _
  set st3 : NormState := ⟨st2.all_components,
    appendAt (combo_name c) st2.all_connections
      (list_index c.p1.name st2.all_components)⟩ with hst3
  have h3 : lenEq st3 := by
    show st3.all_components.length = st3.all_connections.length
    rw [hst3]
    simp only [appendAt_length]
    exact h2
  have hm2' : c.p2.name ∈ st3.all_components := hm2
  have key : processConnection st c =
      ⟨st3.all_components,
        appendAt (combo_name c) st3.all_connections
          (list_index c.p2.name st3.all_components)⟩ := rfl
  rw [key, lookupList_appendAt h3 hm2' (combo_name c) x, hst3,
    lookupList_appendAt h2 hm1 (combo_name c) x,
    lookupList_register (register_lenEq _ h) c.p2.name x,
    lookupList_register h c.p1.name x]
  simp [labelsOfOne, List.append_assoc]

theorem sumLen_register (st : NormState) (n : String) :
    sumLen (register st n).all_connections = sumLen st.all_connections := by
  by_cases hm : n ∈ st.all_components <;> simp [register, hm, sumLen]

theorem sumLen_processConnection {st : NormState} (c : ParsedConn) (h : lenEq st) :
    sumLen (processConnection st c).all_connections = sumLen st.all_connections + 2 := by
  set st2 := register (register st c.p1.name) c.p2.name with hst2
  have h2 : lenEq st2 := register_lenEq _ (register_lenEq _ h)
  have h2' : st2.all_components.length = st2.all_connections.length := h2
  have hm1 : c.p1.name ∈ st2.all_components :=
    mem_register _ (mem_register_self st c.p1.name)
  have hm2 : c.p2.name ∈ st2.all_components := mem_register_self _ _
  have i1lt : list_index c.p1.name st2.all_components < st2.all_connections.length :=
    h2' ▸ list_index_lt_length hm1
  have i2lt : list_index c.p2.name st2.all_components < st2.all_connections.length :=
    h2' ▸ list_index_lt_length hm2
  show sumLen (appendAt (combo_name c)
      (appendAt (combo_name c) st2.all_connections
        (list_index c.p1.name st2.all_components))
      (list_index c.p2.name st2.all_components)) = sumLen st.all_connections + 2
  rw [sumLen_appendAt _ _ _ (by rw [appendAt_length]; exact i2lt),
    sumLen_appendAt _ _ _ i1lt, hst2, sumLen_register, sumLen_register]

/-! Facts about the loop over a parsed connection list -/

theorem foldConns_nil (st : NormState) : foldConns st [] = st := rfl

theorem foldConns_cons (st : NormState) (c : ParsedConn) (cs : List ParsedConn) :
    foldConns st (c :: cs) = foldConns (processConnection st c) cs := rfl

theorem foldConns_lenEq {st : NormState} (cs : List ParsedConn) (h : lenEq st) :
    lenEq (foldConns st cs) := by
  induction cs generalizing st with
  | nil => exact h
  | cons c cs ih => exact ih (processConnection_lenEq c h)

theorem foldConns_components (st : NormState) (cs : List ParsedConn) :
    (foldConns st cs).all_components
      = (endpointNames cs).foldl regName st.all_components := by
  induction cs generalizing st with
  | nil => rfl
  | cons c cs ih =>
    rw [foldConns_cons, ih, endpointNames]
    simp only [List.foldl_cons]
    rw [processConnection_components]

theorem lookupList_foldConns {st : NormState} (cs : List ParsedConn) (h : lenEq st)
    (x : String) :
    lookupList (foldConns st cs) x = lookupList st x ++ labelsOf x cs := by
  induction cs generalizing st with
  | nil => simp [foldConns, labelsOf]
  | cons c cs ih =>
    rw [foldConns_cons, ih (processConnection_lenEq c h),
      lookupList_processConnection c h x]
    simp [labelsOf, List.append_assoc]

theorem sumLen_foldConns {st : NormState} (cs : List ParsedConn) (h : lenEq st) :
    sumLen (foldConns st cs).all_connections
      = sumLen st.all_connections + 2 * cs.length := by
  induction cs generalizing st with
  | nil => simp [foldConns]
  | cons c cs ih =>
    rw [foldConns_cons, ih (processConnection_lenEq c h), sumLen_processConnection c h]
    simp only [List.length_cons]
    omega

/-! Relating `normLoop` and `parseAll` -/

theorem normLoop_eq_parseAll (st : NormState) (raws : List String) :
    normLoop st raws = (parseAll raws).map (foldConns st) := by
  induction raws generalizing st with
  | nil => rfl
  | cons r rs ih =>
    cases hp : parseConnection r with
    | none => simp [normLoop, parseAll, hp]
    | some c =>
      simp only [normLoop, parseAll, hp, ih]
      cases parseAll rs <;> simp [foldConns]

theorem parseAll_length {raws : List String} {cs : List ParsedConn}
    (h : parseAll raws = some cs) : cs.length = raws.length := by
  induction raws generalizing cs with
  | nil =>
    simp only [parseAll, Option.some.injEq] at h
    subst h
    rfl
  | cons r rs ih =>
    cases hp : parseConnection r with
    | none => simp [parseAll, hp] at h
    | some c =>
      cases hq : parseAll rs with
      | none => simp [parseAll, hp, hq] at h
      | some cs' =>
        simp only [parseAll, hp, hq, Option.some.injEq] at h
        subst h
        simp [ih hq]

theorem parseAll_none_of_mem {raws : List String} {r : String} (hr : r ∈ raws)
    (h : parseConnection r = none) : parseAll raws = none := by
  induction raws with
  | nil => cases hr
  | cons a rs ih =>
    rcases List.mem_cons.mp hr with rfl | h1
    · simp [parseAll, h]
    · cases hp : parseConnection a with
      | none => simp [parseAll, hp]
      | some c => simp [parseAll, hp, ih h1]

/-! Facts about `regName` folds -/

theorem regName_nodup {acc : List String} (n : String) (h : acc.Nodup) :
    (regName acc n).Nodup := by
  unfold regName
  by_cases hm : n ∈ acc
  · simpa [hm]
  · simp only [if_neg hm]
    rw [List.nodup_append]
    refine ⟨h, List.nodup_singleton n, ?_⟩
    intro x hx hx2
    rw [List.mem_singleton] at hx2
    subst hx2
    exact hm hx

theorem foldl_regName_nodup {acc : List String} (ns : List String) (h : acc.Nodup) :
    (ns.foldl regName acc).Nodup := by
  induction ns generalizing acc with
  | nil => exact h
  | cons n ns ih => exact ih (regName_nodup n h)

theorem regName_toFinset (acc : List String) (n : String) :
    (regName acc n).toFinset = acc.toFinset ∪ {n} := by
  unfold regName
  by_cases hm : n ∈ acc
  · rw [if_pos hm]
    exact (Finset.union_eq_left.mpr
      (Finset.singleton_subset_iff.mpr (List.mem_toFinset.mpr hm))).symm
  · rw [if_neg hm, List.toFinset_append]
    simp

theorem foldl_regName_toFinset (ns : List String) :
    ∀ acc : List String, (ns.foldl regName acc).toFinset = acc.toFinset ∪ ns.toFinset := by
  induction ns with
  | nil => intro acc; simp
  | cons n ns ih =>
    intro acc
    rw [List.foldl_cons, ih (regName acc n), regName_toFinset, List.toFinset_cons]
    ext x
    simp only [Finset.mem_union, Finset.mem_singleton, Finset.mem_insert]
    tauto

theorem foldl_regName_firstSeen (ns : List String) :
    ∀ acc : List String,
      ns.foldl regName acc = acc ++ (firstSeen ns).filter (fun m => m ∉ acc) := by
  induction ns with
  | nil => intro acc; simp [firstSeen]
  | cons n ns ih =>
    intro acc
    rw [List.foldl_cons, ih (regName acc n)]
    unfold regName
    by_cases hm : n ∈ acc
    · rw [if_pos hm]
      show acc ++ _ = acc ++ _
      congr 1
      rw [show firstSeen (n :: ns) = n :: (firstSeen ns).filter (fun m => m ≠ n) from rfl,
        List.filter_cons]
      have hc : decide (n ∉ acc) = false := by simp [hm]
      rw [hc]
      simp only [Bool.false_eq_true, if_false, List.filter_filter]
      apply List.filter_congr
      intro x hx
      by_cases hxa : x ∈ acc
      · simp [hxa]
      · have hxn : ¬ x = n := fun hh => hxa (hh ▸ hm)
        simp [hxa, hxn]
    · rw [if_neg hm, List.append_assoc]
      congr 1
      rw [show firstSeen (n :: ns) = n :: (firstSeen ns).filter (fun m => m ≠ n) from rfl,
        List.filter_cons]
      have hc : decide (n ∉ acc) = true := by simp [hm]
      rw [hc]
      simp only [if_true, List.filter_filter]
      show n :: _ = n :: _
      congr 1
      apply List.filter_congr
      intro x hx
      by_cases hxa : x ∈ acc <;> by_cases hxn : x = n <;>
        simp [hxa, hxn, List.mem_append]

theorem foldl_regName_nil (ns : List String) : ns.foldl regName [] = firstSeen ns := by
  rw [foldl_regName_firstSeen ns []]
  simp

/-! Facts about `occCount` -/

theorem occCount_append {α : Type} [DecidableEq α] (x : α) (l l2 : List α) :
    occCount x (l ++ l2) = occCount x l + occCount x l2 := by
  induction l with
  | nil => simp [occCount]
  | cons a as ih => simp [occCount, ih, Nat.add_assoc]

theorem occCount_parseAll {raws : List String} {cs : List ParsedConn} {r : String}
    {c : ParsedConn} (h : parseAll raws = some cs) (hr : parseConnection r = some c) :
    occCount r raws ≤ occCount c cs := by
  induction raws generalizing cs with
  | nil =>
    simp only [parseAll, Option.some.injEq] at h
    subst h
    simp [occCount]
  | cons a rs ih =>
    cases hp : parseConnection a with
    | none => simp [parseAll, hp] at h
    | some c' =>
      cases hq : parseAll rs with
      | none => simp [parseAll, hp, hq] at h
      | some cs' =>
        simp only [parseAll, hp, hq, Option.some.injEq] at h
        subst h
        show (if a = r then 1 else 0) + occCount r rs
          ≤ (if c' = c then 1 else 0) + occCount c cs'
        have hle := ih hq
        by_cases hac : a = r
        · subst hac
          rw [hp] at hr
          injection hr with hcc
          subst hcc
          simp only [if_pos rfl]
          omega
        · simp only [if_neg hac]
          by_cases hcc : c' = c <;> simp only [hcc, if_pos, if_neg, if_true] <;> omega

theorem occCount_labelsOfOne_p1 (c : ParsedConn) :
    1 ≤ occCount (combo_name c) (labelsOfOne c.p1.name c) := by
  by_cases h2 : c.p2.name = c.p1.name <;>
    simp [labelsOfOne, h2, occCount_append, occCount]

theorem occCount_labelsOfOne_p2 (c : ParsedConn) :
    1 ≤ occCount (combo_name c) (labelsOfOne c.p2.name c) := by
  by_cases h1 : c.p1.name = c.p2.name <;>
    simp [labelsOfOne, h1, occCount_append, occCount]

theorem occCount_labelsOf_p1 (c : ParsedConn) (cs : List ParsedConn) :
    occCount c cs ≤ occCount (combo_name c) (labelsOf c.p1.name cs) := by
  induction cs with
  | nil => simp [occCount, labelsOf]
  | cons c' cs ih =>
    show (if c' = c then 1 else 0) + occCount c cs
      ≤ occCount (combo_name c) (labelsOfOne c.p1.name c' ++ labelsOf c.p1.name cs)
    rw [occCount_append]
    by_cases hcc : c' = c
    · subst hcc
      have h1 := occCount_labelsOfOne_p1 c'
      have hone : (if c' = c' then (1 : Nat) else 0) = 1 := if_pos rfl
      rw [hone]
      omega
    · simp only [if_neg hcc]
      omega

theorem occCount_labelsOf_p2 (c : ParsedConn) (cs : List ParsedConn) :
    occCount c cs ≤ occCount (combo_name c) (labelsOf c.p2.name cs) := by
  induction cs with
  | nil => simp [occCount, labelsOf]
  | cons c' cs ih =>
    show (if c' = c then 1 else 0) + occCount c cs
      ≤ occCount (combo_name c) (labelsOfOne c.p2.name c' ++ labelsOf c.p2.name cs)
    rw [occCount_append]
    by_cases hcc : c' = c
    · subst hcc
      have h1 := occCount_labelsOfOne_p2 c'
      have hone : (if c' = c' then (1 : Nat) else 0) = 1 := if_pos rfl
      rw [hone]
      omega
    · simp only [if_neg hcc]
      omega

/-! Top-level corollaries shared by the claim proofs -/

theorem normalizeConnections_eq {raws : List String} {cs : List ParsedConn}
    (hp : parseAll raws = some cs) :
    normalizeConnections raws = some (foldConns ⟨[], []⟩ cs) := by
  unfold normalizeConnections
  rw [normLoop_eq_parseAll, hp]
  rfl

theorem lookupList_init (x : String) : lookupList ⟨[], []⟩ x = [] := rfl

/-! The claims -/

/-- C1: for every well-formed raw connections list of length n (every
entry parses: exactly one "$", exactly one ";" per connection point), the
normalized components list contains no duplicate names, its length equals
the number of distinct endpoint component-instance names across all
entries, and the pair-labels summed over all `connections` entries number
exactly `2 * n` (one appended per endpoint per raw connection). -/
theorem C1_normalization_counts {raws : List String} {cs : List ParsedConn}
    {st : NormState} (hp : parseAll raws = some cs)
    (hn : normalizeConnections raws = some st) :
    st.all_components.Nodup ∧
    st.all_components.length = (endpointNames cs).toFinset.card ∧
    sumLen st.all_connections = 2 * raws.length := by
  rw [normalizeConnections_eq hp] at hn
  injection hn with hn
  subst hn
  have hcomp : (foldConns ⟨[], []⟩ cs).all_components
      = (endpointNames cs).foldl regName [] := foldConns_components _ cs
  refine ⟨?_, ?_, ?_⟩
  · rw [hcomp]
    exact foldl_regName_nodup _ List.nodup_nil
  · rw [hcomp, ← List.toFinset_card_of_nodup (foldl_regName_nodup _ List.nodup_nil),
      foldl_regName_toFinset]
    simp
  · rw [@sumLen_foldConns ⟨[], []⟩ cs rfl]
    simp [sumLen, parseAll_length hp]

theorem C1_normalization_counts_witness :
    (NormState.mk ["A", "B"] [["x/y"], ["x/y"]]).all_components.Nodup ∧
    (NormState.mk ["A", "B"] [["x/y"], ["x/y"]]).all_components.length
      = (endpointNames [⟨⟨"A", "x"⟩, ⟨"B", "y"⟩⟩]).toFinset.card ∧
    sumLen (NormState.mk ["A", "B"] [["x/y"], ["x/y"]]).all_connections
      = 2 * (["A;x$B;y"] : List String).length :=
  @C1_normalization_counts ["A;x$B;y"] [⟨⟨"A", "x"⟩, ⟨"B", "y"⟩⟩]
    ⟨["A", "B"], [["x/y"], ["x/y"]]⟩ rfl rfl

/-- C2: component indices are assigned in first-seen order over the raw
connections processed in input order, with no sorting: the normalized
components list is exactly the endpoint names in order of first
occurrence in document order; in particular the input
["A;x$B;y", "C;z$A;w"] yields components = ["A", "B", "C"]. -/
theorem C2_first_seen_order {raws : List String} {cs : List ParsedConn}
    {st : NormState} (hp : parseAll raws = some cs)
    (hn : normalizeConnections raws = some st) :
    st.all_components = firstSeen (endpointNames cs) ∧
    (normalizeConnections ["A;x$B;y", "C;z$A;w"]).map NormState.all_components
      = some ["A", "B", "C"] := by
  refine ⟨?_, rfl⟩
  rw [normalizeConnections_eq hp] at hn
  injection hn with hn
  subst hn
  rw [foldConns_components, foldl_regName_nil]

theorem C2_first_seen_order_witness :
    (NormState.mk ["A", "B", "C"] [["x/y", "z/w"], ["x/y"], ["z/w"]]).all_components
      = firstSeen (endpointNames [⟨⟨"A", "x"⟩, ⟨"B", "y"⟩⟩, ⟨⟨"C", "z"⟩, ⟨"A", "w"⟩⟩]) ∧
    (normalizeConnections ["A;x$B;y", "C;z$A;w"]).map NormState.all_components
      = some ["A", "B", "C"] :=
  @C2_first_seen_order ["A;x$B;y", "C;z$A;w"]
    [⟨⟨"A", "x"⟩, ⟨"B", "y"⟩⟩, ⟨⟨"C", "z"⟩, ⟨"A", "w"⟩⟩]
    ⟨["A", "B", "C"], [["x/y", "z/w"], ["x/y"], ["z/w"]]⟩ rfl rfl

/-- C3: a self-loop connection, where both endpoints name the same
component instance, appends the combined pair-label twice to that single
component's list: ["A;1$A;2"] yields components = ["A"] and
connections = [["1/2", "1/2"]]. -/
theorem C3_self_loop :
    normalizeConnections ["A;1$A;2"] = some ⟨["A"], [["1/2", "1/2"]]⟩ := rfl

/-- C4: a malformed entry anywhere in the raw connections list (no "$",
no ";" on a point, or more than one of either where one is expected, so
that parsing fails) makes the whole pipeline return the single failure
value: no partial or degraded normalized project is ever returned; the
spec's example "A$B;y" is such a malformed entry. -/
theorem C4_malformed_aborts {p : RawProject} {r : String} (hr : r ∈ p.connections)
    (hbad : parseConnection r = none) :
    get_project_info_cohere p = none ∧
    parseConnection "A$B;y" = none ∧
    parseConnection "AxBy" = none ∧
    parseConnection "A;x$B;y$C;z" = none ∧
    parseConnection "A;;x$B;y" = none := by
  refine ⟨?_, rfl, rfl, rfl, rfl⟩
  unfold get_project_info_cohere
  rw [normLoop_eq_parseAll, parseAll_none_of_mem hr hbad]
  rfl

theorem C4_malformed_aborts_witness :
    get_project_info_cohere ⟨"n", "d", ["i"], ["A", "B"], ["A$B;y"], "c", []⟩ = none ∧
    parseConnection "A$B;y" = none ∧
    parseConnection "AxBy" = none ∧
    parseConnection "A;x$B;y$C;z" = none ∧
    parseConnection "A;;x$B;y" = none :=
  @C4_malformed_aborts ⟨"n", "d", ["i"], ["A", "B"], ["A$B;y"], "c", []⟩ "A$B;y"
    (List.mem_singleton.mpr rfl) rfl

/-- C5: end-to-end normalization of the raw connections list pairing the
plus terminals and the minus terminals of a battery and a motor yields
components = ["Battery", "Motor"] and, for each of the two components,
the label list of the plus pair followed by the minus pair, each
pair-label built as connectorLabel1 ++ "/" ++ connectorLabel2 in the
order the endpoints appeared in the string. -/
theorem C5_end_to_end :
    get_project_info_cohere
      ⟨"Robot", "desc", ["step1"], ["Battery", "Motor"],
        ["Battery;+$Motor;+", "Battery;-$Motor;-"], "code", []⟩
      = some ⟨"Robot", "desc", ["step1"], ["Battery", "Motor"],
          [["+/+", "-/-"], ["+/+", "-/-"]], "code", []⟩ ∧
    normalizeConnections ["Battery;+$Motor;+", "Battery;-$Motor;-"]
      = some ⟨["Battery", "Motor"], [["+/+", "-/-"], ["+/+", "-/-"]]⟩ :=
  ⟨rfl, rfl⟩

/-- C6: the normalized lists are parallel: connections has the same
length as components, and entry i of connections is exactly the sequence
of pair-labels incident to component-instance i, in the order the raw
connection strings were processed.  The statement quantifies over every
well-formed raw list; since the loop folds left to right and every prefix
of a raw list is itself a raw list, this covers the state after
processing every prefix as well as the final output. -/
theorem C6_parallel_lists {raws : List String} {cs : List ParsedConn}
    {st : NormState} (hp : parseAll raws = some cs)
    (hn : normalizeConnections raws = some st) :
    st.all_connections.length = st.all_components.length ∧
    ∀ i, i < st.all_components.length →
      st.all_connections.getD i [] = labelsOf (st.all_components.getD i "") cs := by
  rw [normalizeConnections_eq hp] at hn
  injection hn with hn
  subst hn
  have hlen : lenEq (foldConns ⟨[], []⟩ cs) := foldConns_lenEq cs rfl
  have hlen' : (foldConns ⟨[], []⟩ cs).all_components.length
      = (foldConns ⟨[], []⟩ cs).all_connections.length := hlen
  refine ⟨hlen'.symm, ?_⟩
  intro i hi
  have hnd : (foldConns ⟨[], []⟩ cs).all_components.Nodup := by
    rw [foldConns_components]
    exact foldl_regName_nodup _ List.nodup_nil
  have hidx : list_index ((foldConns ⟨[], []⟩ cs).all_components.getD i "")
      (foldConns ⟨[], []⟩ cs).all_components = i := list_index_getD "" hnd hi
  have hlook := @lookupList_foldConns ⟨[], []⟩ cs rfl
    ((foldConns ⟨[], []⟩ cs).all_components.getD i "")
  rw [lookupList_init, List.nil_append] at hlook
  rw [← hlook]
  unfold lookupList
  rw [hidx]

theorem C6_parallel_lists_witness :
    (NormState.mk ["A"] [["1/2", "1/2"]]).all_connections.getD 0 []
      = labelsOf ((NormState.mk ["A"] [["1/2", "1/2"]]).all_components.getD 0 "")
          [⟨⟨"A", "1"⟩, ⟨"A", "2"⟩⟩] :=
  (@C6_parallel_lists ["A;1$A;2"] [⟨⟨"A", "1"⟩, ⟨"A", "2"⟩⟩]
    ⟨["A"], [["1/2", "1/2"]]⟩ rfl rfl).2 0 (by decide)

/-- C7: duplicate raw connection strings are not deduplicated: if the raw
string r, parsing to the connection c, occurs k times in the input, then
the normalized list of each of its endpoints contains the combined
pair-label at least k times (each copy independently appends one). -/
theorem C7_duplicates_kept {raws : List String} {cs : List ParsedConn}
    {st : NormState} {r : String} {c : ParsedConn}
    (hp : parseAll raws = some cs) (hn : normalizeConnections raws = some st)
    (hr : parseConnection r = some c) :
    occCount r raws ≤ occCount (combo_name c) (lookupList st c.p1.name) ∧
    occCount r raws ≤ occCount (combo_name c) (lookupList st c.p2.name) := by
  rw [normalizeConnections_eq hp] at hn
  injection hn with hn
  subst hn
  have h1 := @lookupList_foldConns ⟨[], []⟩ cs rfl c.p1.name
  have h2 := @lookupList_foldConns ⟨[], []⟩ cs rfl c.p2.name
  rw [lookupList_init, List.nil_append] at h1 h2
  rw [h1, h2]
  exact ⟨le_trans (occCount_parseAll hp hr) (occCount_labelsOf_p1 c cs),
    le_trans (occCount_parseAll hp hr) (occCount_labelsOf_p2 c cs)⟩

theorem C7_duplicates_kept_witness :
    occCount "A;1$B;2" ["A;1$B;2", "A;1$B;2"]
      ≤ occCount (combo_name ⟨⟨"A", "1"⟩, ⟨"B", "2"⟩⟩)
          (lookupList ⟨["A", "B"], [["1/2", "1/2"], ["1/2", "1/2"]]⟩
            (ParsedConn.mk ⟨"A", "1"⟩ ⟨"B", "2"⟩).p1.name) ∧
    occCount "A;1$B;2" ["A;1$B;2", "A;1$B;2"]
      ≤ occCount (combo_name ⟨⟨"A", "1"⟩, ⟨"B", "2"⟩⟩)
          (lookupList ⟨["A", "B"], [["1/2", "1/2"], ["1/2", "1/2"]]⟩
            (ParsedConn.mk ⟨"A", "1"⟩ ⟨"B", "2"⟩).p2.name) :=
  @C7_duplicates_kept ["A;1$B;2", "A;1$B;2"]
    [⟨⟨"A", "1"⟩, ⟨"B", "2"⟩⟩, ⟨⟨"A", "1"⟩, ⟨"B", "2"⟩⟩]
    ⟨["A", "B"], [["1/2", "1/2"], ["1/2", "1/2"]]⟩ "A;1$B;2"
    ⟨⟨"A", "1"⟩, ⟨"B", "2"⟩⟩ rfl rfl rfl

/-- C8: normalization replaces only the components and connections fields
of the project description: every other field (name, description,
instruction, code, and the additional keys) of the returned object is
unchanged from the parsed model response. -/
theorem C8_frame {p : RawProject} {q : NormalizedProject}
    (h : get_project_info_cohere p = some q) :
    q.name = p.name ∧ q.description = p.description ∧
    q.instruction = p.instruction ∧ q.code = p.code ∧ q.extra = p.extra := by
  unfold get_project_info_cohere at h
  cases hn : normLoop ⟨[], []⟩ p.connections with
  | none => rw [hn] at h; cases h
  | some st =>
    rw [hn] at h
    injection h with h
    subst h
    exact ⟨rfl, rfl, rfl, rfl, rfl⟩

theorem C8_frame_witness :
    (NormalizedProject.mk "n" "d" ["i"] ["A", "B"] [["x/y"], ["x/y"]] "c"
        [("k", "v")]).name
      = (RawProject.mk "n" "d" ["i"] ["zz"] ["A;x$B;y"] "c" [("k", "v")]).name ∧
    (NormalizedProject.mk "n" "d" ["i"] ["A", "B"] [["x/y"], ["x/y"]] "c"
        [("k", "v")]).description
      = (RawProject.mk "n" "d" ["i"] ["zz"] ["A;x$B;y"] "c" [("k", "v")]).description ∧
    (NormalizedProject.mk "n" "d" ["i"] ["A", "B"] [["x/y"], ["x/y"]] "c"
        [("k", "v")]).instruction
      = (RawProject.mk "n" "d" ["i"] ["zz"] ["A;x$B;y"] "c" [("k", "v")]).instruction ∧
    (NormalizedProject.mk "n" "d" ["i"] ["A", "B"] [["x/y"], ["x/y"]] "c"
        [("k", "v")]).code
      = (RawProject.mk "n" "d" ["i"] ["zz"] ["A;x$B;y"] "c" [("k", "v")]).code ∧
    (NormalizedProject.mk "n" "d" ["i"] ["A", "B"] [["x/y"], ["x/y"]] "c"
        [("k", "v")]).extra
      = (RawProject.mk "n" "d" ["i"] ["zz"] ["A;x$B;y"] "c" [("k", "v")]).extra :=
  @C8_frame ⟨"n", "d", ["i"], ["zz"], ["A;x$B;y"], "c", [("k", "v")]⟩
    ⟨"n", "d", ["i"], ["A", "B"], [["x/y"], ["x/y"]], "c", [("k", "v")]⟩ rfl

/-- C9: the raw components field is unconditionally overwritten with the
names derived solely from the connection strings: a name never appearing
in a connection string is omitted even if present in the raw components
field; with an empty raw connections list the result has components = []
and connections = [] whatever the raw components field held, and the
normalized components are invariant under changing the raw components
field. -/
theorem C9_components_overwritten :
    (∀ p : RawProject, p.connections = [] →
      get_project_info_cohere p
        = some ⟨p.name, p.description, p.instruction, [], [], p.code, p.extra⟩) ∧
    (∀ (p : RawProject) (l : List String),
      (get_project_info_cohere
          (RawProject.mk p.name p.description p.instruction l p.connections
            p.code p.extra)).map NormalizedProject.components
        = (get_project_info_cohere p).map NormalizedProject.components) := by
  constructor
  · intro p hp
    unfold get_project_info_cohere
    rw [hp]
    rfl
  · intro p l
    rfl

theorem C9_components_overwritten_witness :
    get_project_info_cohere ⟨"n", "d", ["i"], ["X", "Y"], [], "c", []⟩
      = some ⟨"n", "d", ["i"], [], [], "c", []⟩ :=
  C9_components_overwritten.1 ⟨"n", "d", ["i"], ["X", "Y"], [], "c", []⟩ rfl

/-- C10: the parser imposes no non-emptiness check on the parts between
delimiters: an empty component-instance name (";x$B;y") or an empty
connector label ("A;$B;y") is accepted as well-formed, the empty string
is registered as a distinct component instance (or used inside the
pair-label), and normalization succeeds. -/
theorem C10_empty_parts_accepted :
    parseConnection ";x$B;y" = some ⟨⟨"", "x"⟩, ⟨"B", "y"⟩⟩ ∧
    normalizeConnections [";x$B;y"] = some ⟨["", "B"], [["x/y"], ["x/y"]]⟩ ∧
    normalizeConnections ["A;$B;y"] = some ⟨["A", "B"], [["/y"], ["/y"]]⟩ :=
  ⟨rfl, rfl, rfl⟩

end TinkerFlow
